import Mathlib

/-!
Verification of the CustomArgParse utility (`customargparse.py`).

Python strings are embedded as `List Char` (a Python string is a sequence of
characters); Python dictionaries are embedded as association lists in
insertion order (Python 3.7+ dicts preserve insertion order and have unique
keys; uniqueness is carried as an explicit hypothesis where a proof needs it).
A nested configuration value is either a leaf or a nested dictionary.
-/

set_option autoImplicit false

namespace CustomArgParse

/-- A Python string, embedded as its sequence of characters. -/
abbrev Key := List Char

/-- A value in a nested mapping: either a leaf of payload type `α`, or a
nested dictionary (association list in insertion order). -/
inductive Val (α : Type) where
  | prim : α → Val α
  | dict : List (Key × Val α) → Val α

/-- A nested mapping: an association list from keys to values. -/
abbrev NDict (α : Type) := List (Key × Val α)

variable {α : Type} {β : Type}

/-- The keys of an association list, in order. -/
def keysOf (d : List (Key × β)) : List Key := d.map Prod.fst

/-- First-occurrence lookup in an association list (Python `d[k]` /
`k in d`, where Python dicts have unique keys). -/
def alookup (k : Key) : List (Key × β) → Option β
  | [] => none
  | (k1, v) :: rest => if k1 = k then some v else alookup k rest

/-- Python `s.split('.')`: split a string on every dot character.
`splitDot []` is `[[]]`, matching `''.split('.') == ['']`. -/
def splitDot : Key → List Key
  | [] => [[]]
  | c :: rest =>
    if c = '.' then [] :: splitDot rest
    else
      match splitDot rest with
      | [] => [[c]]
      | g :: gs => (c :: g) :: gs

/-- Source `flatten_keys(d)`: DFS over a nested dictionary producing the
list of (dot-joined key, leaf value) pairs.  A value is recursed into only
when it is itself a dictionary; anything else is a leaf. -/
def flatten_keys : NDict α → List (Key × α)
  | [] => []
  | (k, Val.prim v) :: rest => (k, v) :: flatten_keys rest
  | (k, Val.dict d) :: rest =>
      ((flatten_keys d).map (fun p => (k ++ '.' :: p.1, p.2))) ++ flatten_keys rest
termination_by d => sizeOf d
decreasing_by all_goals (simp_wf; try omega)

mutual

/-- Source `merge_dicts(d1, d2)` (the inner helper of `expand_dict`):
for each key of `d2` in order, if the key is present in `d1` and both
values are dictionaries, merge recursively; if present otherwise,
overwrite in place; if absent, append at the end. -/
def merge_dicts (d1 : NDict α) : NDict α → NDict α
  | [] => d1
  | (k, v) :: rest => merge_dicts (mergeKey d1 k v) rest
termination_by d2 => (sizeOf d2, 0)
decreasing_by all_goals (simp_wf; try omega)

/-- One iteration of the `for key in d2` loop of `merge_dicts`: merge the
single binding `(k, v)` into `d1`. -/
def mergeKey : NDict α → Key → Val α → NDict α
  | [], k, v => [(k, v)]
  | (k1, v1) :: d, k, v =>
    if k1 = k then
      match v1, v with
      | Val.dict m1, Val.dict m2 => (k1, Val.dict (merge_dicts m1 m2)) :: d
      | _, _ => (k1, v) :: d
    else (k1, v1) :: mergeKey d k v
termination_by d k v => (sizeOf v, sizeOf d + 1)
decreasing_by all_goals (simp_wf; try omega)

end

/-- The chain of single-key dictionaries that `expand_dict` builds for one
flat binding `(k, v)`: split the key on dots, reverse, wrap the value. -/
def chainOf (k : Key) (v : Val α) : NDict α :=
  match (splitDot k).reverse with
  | [] => []
  | s0 :: rest => rest.foldl (fun child i => [(i, Val.dict child)]) [(s0, v)]

/-- Source `expand_dict(b)`: expand a dictionary with flattened (dotted)
keys back into nested dictionaries, merging the chain of each binding into
the accumulated result in input order. -/
def expand_dict (b : NDict α) : NDict α :=
  b.foldl (fun c kv => merge_dicts c (chainOf kv.1 kv.2)) []

/-! ### Helper notions used to state and prove the properties -/

/-- A flat (key, leaf) list viewed as a dictionary whose values are leaves:
this is the `dict(flat_config)` the orchestrator builds from
`flatten_keys`. -/
def primify (l : List (Key × α)) : NDict α :=
  l.map (fun kv => (kv.1, Val.prim kv.2))

/-- The key contains no dot character. -/
def dotFree (k : Key) : Bool := k.all (fun c => c != '.')

/-- The association list binds each key at most once (Python dictionaries
always satisfy this). -/
def nodupKeysB : List (Key × β) → Bool
  | [] => true
  | (k, _) :: rest => !((keysOf rest).contains k) && nodupKeysB rest

/-- A well-formed nested mapping: at every nesting level the keys are
pairwise distinct and contain no dot. -/
def goodB : NDict α → Bool
  | [] => true
  | (k, Val.prim _) :: rest =>
      dotFree k && !((keysOf rest).contains k) && goodB rest
  | (k, Val.dict d) :: rest =>
      dotFree k && !((keysOf rest).contains k) && goodB d && goodB rest
termination_by d => sizeOf d
decreasing_by all_goals (simp_wf; try omega)

/-- The nested dictionary consisting of a single path of keys ending in the
given value. -/
def pathDict : List Key → Val α → NDict α
  | [], _ => []
  | [k], v => [(k, v)]
  | k :: k2 :: rest, v => [(k, Val.dict (pathDict (k2 :: rest) v))]

/-- The leaf value reached from a nested dictionary by following a path of
key segments; `none` when the path does not end at a leaf. -/
def leafAt : List Key → NDict α → Option α
  | [], _ => none
  | [k], d =>
    match alookup k d with
    | some (Val.prim a) => some a
    | _ => none
  | k :: k2 :: rest, d =>
    match alookup k d with
    | some (Val.dict d2) => leafAt (k2 :: rest) d2
    | _ => none

/-- A nested mapping with every entry that contributes no leaf removed
(the part of the structure that `flatten_keys` forgets). -/
def pruneEmpty : NDict α → NDict α
  | [] => []
  | (k, Val.prim v) :: rest => (k, Val.prim v) :: pruneEmpty rest
  | (k, Val.dict d) :: rest =>
    match flatten_keys d with
    | [] => pruneEmpty rest
    | _ :: _ => (k, Val.dict (pruneEmpty d)) :: pruneEmpty rest
termination_by d => sizeOf d
decreasing_by all_goals (simp_wf; try omega)

/-- Folding flat (key, leaf) entries into an accumulator the way
`expand_dict` does, starting from `c`. -/
def expandFold (c : NDict α) (l : List (Key × α)) : NDict α :=
  l.foldl (fun c kv => merge_dicts c (chainOf kv.1 (Val.prim kv.2))) c

/-- A single key path wrapped outside-in around a starting dictionary;
used to describe the chain-building loop of `expand_dict`. -/
def wrapPath : List Key → NDict α → NDict α
  | [], c => c
  | k :: ks, c => [(k, Val.dict (wrapPath ks c))]

/-! ### Basic lemmas about splitting and chains -/

theorem splitDot_ne_nil (k : Key) : splitDot k ≠ [] := by
  cases k with
  | nil => simp [splitDot]
  | cons c rest =>
    simp only [splitDot]
    split
    · simp
    · split <;> simp

theorem splitDot_dotFree {k : Key} (h : dotFree k = true) : splitDot k = [k] := by
  induction k with
  | nil => rfl
  | cons c rest ih =>
    simp only [dotFree, List.all_cons, Bool.and_eq_true, bne_iff_ne] at h
    simp only [splitDot, if_neg h.1, ih (by simp [dotFree, h.2])]

theorem splitDot_append {a : Key} (s : Key) (h : dotFree a = true) :
    splitDot (a ++ '.' :: s) = a :: splitDot s := by
  induction a with
  | nil => simp [splitDot]
  | cons c rest ih =>
    simp only [dotFree, List.all_cons, Bool.and_eq_true, bne_iff_ne] at h
    simp only [List.cons_append, splitDot, if_neg h.1, List.append_eq]
    rw [ih (by simp [dotFree, h.2])]

theorem wrapPath_append (l : List Key) (i : Key) (c : NDict α) :
    wrapPath (l ++ [i]) c = wrapPath l [(i, Val.dict c)] := by
  induction l with
  | nil => rfl
  | cons k ks ih => simp [wrapPath, ih]

theorem foldl_chain_eq_wrapPath (rest : List Key) (child : NDict α) :
    rest.foldl (fun child i => [(i, Val.dict child)]) child
      = wrapPath rest.reverse child := by
  induction rest generalizing child with
  | nil => rfl
  | cons i rest' ih =>
    simp only [List.foldl_cons, ih, List.reverse_cons, wrapPath_append]

theorem pathDict_cons {xs : List Key} (k : Key) (v : Val α) (h : xs ≠ []) :
    pathDict (k :: xs) v = [(k, Val.dict (pathDict xs v))] := by
  cases xs with
  | nil => exact absurd rfl h
  | cons k2 rest => rfl

theorem pathDict_append_last (l : List Key) (s0 : Key) (v : Val α) :
    pathDict (l ++ [s0]) v = wrapPath l [(s0, v)] := by
  induction l with
  | nil => rfl
  | cons k l' ih =>
    rw [List.cons_append, pathDict_cons k v (by simp), ih]
    rfl

theorem chainOf_eq_pathDict (k : Key) (v : Val α) :
    chainOf k v = pathDict (splitDot k) v := by
  rcases hrev : (splitDot k).reverse with _ | ⟨s0, rest⟩
  · exact absurd (by simpa using congrArg List.reverse hrev) (splitDot_ne_nil k)
  · have hk : splitDot k = rest.reverse ++ [s0] := by
      have := congrArg List.reverse hrev
      simpa using this
    simp only [chainOf, hrev]
    rw [foldl_chain_eq_wrapPath, hk, pathDict_append_last]

/-! ### Lemmas about keys, lookup and merging -/

theorem keysOf_cons (k : Key) (v : β) (l : List (Key × β)) :
    keysOf ((k, v) :: l) = k :: keysOf l := rfl

theorem keysOf_append (l1 l2 : List (Key × β)) :
    keysOf (l1 ++ l2) = keysOf l1 ++ keysOf l2 := by
  simp [keysOf]

theorem not_mem_of_not_contains {l : List Key} {k : Key}
    (h : l.contains k = false) : k ∉ l := by
  intro hmem
  have h2 : l.contains k = true := List.elem_iff.mpr hmem
  rw [h2] at h
  exact Bool.true_eq_false.mp h

/-- The value stored for a key both sides bind: recursive merge when both
are dictionaries, otherwise the later value. -/
def mergeVal : Val α → Val α → Val α
  | Val.dict m1, Val.dict m2 => Val.dict (merge_dicts m1 m2)
  | _, v => v

theorem merge_nil (d1 : NDict α) : merge_dicts d1 [] = d1 := by
  simp [merge_dicts]

theorem merge_cons (d1 : NDict α) (k : Key) (v : Val α) (rest : NDict α) :
    merge_dicts d1 ((k, v) :: rest) = merge_dicts (mergeKey d1 k v) rest := by
  simp [merge_dicts]

theorem mergeKey_nil (k : Key) (v : Val α) :
    mergeKey ([] : NDict α) k v = [(k, v)] := by
  simp [mergeKey]

theorem mergeKey_cons_ne {k1 k : Key} (v1 v : Val α) (d : NDict α)
    (h : ¬ k1 = k) :
    mergeKey ((k1, v1) :: d) k v = (k1, v1) :: mergeKey d k v := by
  rw [mergeKey.eq_def]
  simp only [if_neg h]

theorem mergeKey_cons_eq {k1 k : Key} (v1 v : Val α) (d : NDict α)
    (h : k1 = k) :
    mergeKey ((k1, v1) :: d) k v = (k1, mergeVal v1 v) :: d := by
  rw [mergeKey.eq_def]
  simp only [if_pos h]
  cases v1 <;> cases v <;> rfl

theorem alookup_eq_none {k : Key} {l : List (Key × β)} (h : k ∉ keysOf l) :
    alookup k l = none := by
  induction l with
  | nil => rfl
  | cons kv rest ih =>
    obtain ⟨k1, v⟩ := kv
    simp only [keysOf, List.map_cons, List.mem_cons, not_or] at h
    simp only [alookup, if_neg (fun hh : k1 = k => h.1 hh.symm)]
    exact ih h.2

theorem mergeKey_absent {k : Key} {c : NDict α} (v : Val α)
    (h : k ∉ keysOf c) : mergeKey c k v = c ++ [(k, v)] := by
  induction c with
  | nil => simp [mergeKey_nil]
  | cons kv d ih =>
    obtain ⟨k1, v1⟩ := kv
    simp only [keysOf, List.map_cons, List.mem_cons, not_or] at h
    rw [mergeKey_cons_ne v1 v d (fun hh : k1 = k => h.1 hh.symm),
      List.cons_append, ih h.2]

theorem merge_single (c : NDict α) (k : Key) (v : Val α) :
    merge_dicts c [(k, v)] = mergeKey c k v := by
  rw [merge_cons, merge_nil]

theorem mergeKey_found_dict {k : Key} {c1 : NDict α} (c2 C X : NDict α)
    (h : k ∉ keysOf c1) :
    mergeKey (c1 ++ (k, Val.dict C) :: c2) k (Val.dict X)
      = c1 ++ (k, Val.dict (merge_dicts C X)) :: c2 := by
  induction c1 with
  | nil =>
    simp only [List.nil_append]
    rw [mergeKey_cons_eq _ _ _ rfl]
    rfl
  | cons kv d ih =>
    obtain ⟨k1, v1⟩ := kv
    simp only [keysOf, List.map_cons, List.mem_cons, not_or] at h
    simp only [List.cons_append]
    rw [mergeKey_cons_ne v1 _ _ (fun hh : k1 = k => h.1 hh.symm),
      ih h.2]

theorem merge_nil_single (s : Key) (w : Val α) :
    merge_dicts ([] : NDict α) [(s, w)] = [(s, w)] := by
  rw [merge_single, mergeKey_nil]

theorem chainOf_shape (j : Key) (v : Val α) :
    ∃ s w, chainOf j v = [(s, w)] := by
  rw [chainOf_eq_pathDict]
  rcases hs : splitDot j with _ | ⟨s, xs⟩
  · exact absurd hs (splitDot_ne_nil j)
  · cases xs with
    | nil => exact ⟨s, v, rfl⟩
    | cons s2 ys => exact ⟨s, Val.dict (pathDict (s2 :: ys) v), rfl⟩

theorem merge_nil_chain (j : Key) (v : Val α) :
    merge_dicts ([] : NDict α) (chainOf j v) = chainOf j v := by
  obtain ⟨s, w, hs⟩ := chainOf_shape j v
  rw [hs, merge_nil_single]

theorem expandFold_append (c : NDict α) (l1 l2 : List (Key × α)) :
    expandFold c (l1 ++ l2) = expandFold (expandFold c l1) l2 := by
  simp [expandFold, List.foldl_append]

/-- Folding the flat entries of a nested sub-dictionary, each key prefixed
with `k` and a dot, merges entirely inside the entry of `k`. -/
theorem expandFold_prefixed {k : Key} (hk : dotFree k = true) :
    ∀ (l : List (Key × α)) (c1 c2 C : NDict α), k ∉ keysOf c1 →
    expandFold (c1 ++ (k, Val.dict C) :: c2)
        (l.map (fun p => (k ++ '.' :: p.1, p.2)))
      = c1 ++ (k, Val.dict (expandFold C l)) :: c2 := by
  intro l
  induction l with
  | nil => intro c1 c2 C h; rfl
  | cons e l' ih =>
    intro c1 c2 C h
    obtain ⟨j, v⟩ := e
    simp only [List.map_cons, expandFold, List.foldl_cons]
    rw [chainOf_eq_pathDict, splitDot_append j hk,
      pathDict_cons k _ (splitDot_ne_nil j), ← chainOf_eq_pathDict,
      merge_single, mergeKey_found_dict c2 C _ h]
    exact ih c1 c2 (merge_dicts C (chainOf j (Val.prim v))) h

/-! ### Spine lemmas for the recursive definitions -/

theorem flatten_nil : flatten_keys ([] : NDict α) = [] := by
  simp [flatten_keys]

theorem flatten_prim (k : Key) (v : α) (rest : NDict α) :
    flatten_keys ((k, Val.prim v) :: rest) = (k, v) :: flatten_keys rest := by
  simp [flatten_keys]

theorem flatten_dict (k : Key) (d rest : NDict α) :
    flatten_keys ((k, Val.dict d) :: rest)
      = ((flatten_keys d).map (fun p => (k ++ '.' :: p.1, p.2)))
          ++ flatten_keys rest := by
  simp [flatten_keys]

theorem pruneEmpty_nil : pruneEmpty ([] : NDict α) = [] := by
  simp [pruneEmpty]

theorem pruneEmpty_prim (k : Key) (v : α) (rest : NDict α) :
    pruneEmpty ((k, Val.prim v) :: rest) = (k, Val.prim v) :: pruneEmpty rest := by
  simp [pruneEmpty]

theorem pruneEmpty_dict_nil {d : NDict α} (k : Key) (rest : NDict α)
    (h : flatten_keys d = []) :
    pruneEmpty ((k, Val.dict d) :: rest) = pruneEmpty rest := by
  rw [pruneEmpty.eq_def]
  simp only [h]

theorem pruneEmpty_dict_cons {d : NDict α} (k : Key) (rest : NDict α)
    {e : Key × α} {es : List (Key × α)} (h : flatten_keys d = e :: es) :
    pruneEmpty ((k, Val.dict d) :: rest)
      = (k, Val.dict (pruneEmpty d)) :: pruneEmpty rest := by
  rw [pruneEmpty.eq_def]
  simp only [h]

theorem goodB_nil : goodB ([] : NDict α) = true := by
  simp [goodB]

theorem goodB_prim {k : Key} {v : α} {rest : NDict α}
    (h : goodB ((k, Val.prim v) :: rest) = true) :
    dotFree k = true ∧ k ∉ keysOf rest ∧ goodB rest = true := by
  simp only [goodB, Bool.and_eq_true, Bool.not_eq_true'] at h
  exact ⟨h.1.1, not_mem_of_not_contains h.1.2, h.2⟩

theorem goodB_dict {k : Key} {d rest : NDict α}
    (h : goodB ((k, Val.dict d) :: rest) = true) :
    dotFree k = true ∧ k ∉ keysOf rest ∧ goodB d = true ∧ goodB rest = true := by
  simp only [goodB, Bool.and_eq_true, Bool.not_eq_true'] at h
  exact ⟨h.1.1.1, not_mem_of_not_contains h.1.1.2, h.1.2, h.2⟩

theorem expandFold_nil (c : NDict α) : expandFold c [] = c := rfl

theorem expandFold_cons (c : NDict α) (k : Key) (v : α) (l : List (Key × α)) :
    expandFold c ((k, v) :: l)
      = expandFold (merge_dicts c (chainOf k (Val.prim v))) l := rfl

/-! ### The structural round-trip lemma -/

/-- Folding the flat entries of a well-formed nested mapping `m` into an
accumulator `c` whose keys are disjoint from `m`'s appends exactly the
pruned form of `m`. -/
theorem expandFold_flatten (m : NDict α) :
    goodB m = true → ∀ c : NDict α, (∀ k, k ∈ keysOf m → k ∉ keysOf c) →
    expandFold c (flatten_keys m) = c ++ pruneEmpty m := by
  match m with
  | [] =>
    intro _ c _
    rw [flatten_nil, expandFold_nil, pruneEmpty_nil, List.append_nil]
  | (k, Val.prim v) :: rest =>
    intro hm c hdisj
    obtain ⟨hdf, hct, hrest⟩ := goodB_prim hm
    have hkc : k ∉ keysOf c := hdisj k (List.mem_cons_self k (keysOf rest))
    have hstep : merge_dicts c (chainOf k (Val.prim v)) = c ++ [(k, Val.prim v)] := by
      rw [chainOf_eq_pathDict, splitDot_dotFree hdf,
        show pathDict [k] (Val.prim v) = [(k, Val.prim v)] from rfl,
        merge_single, mergeKey_absent _ hkc]
    have hdisj' : ∀ k2, k2 ∈ keysOf rest → k2 ∉ keysOf (c ++ [(k, Val.prim v)]) := by
      intro k2 hk2
      rw [keysOf_append]
      intro hmem
      rcases List.mem_append.mp hmem with h1 | h1
      · exact hdisj k2 (List.mem_cons_of_mem k hk2) h1
      · have hk2k : k2 = k := List.mem_singleton.mp h1
        exact hct (hk2k ▸ hk2)
    rw [flatten_prim, expandFold_cons, hstep,
      expandFold_flatten rest hrest _ hdisj', pruneEmpty_prim,
      List.append_assoc]
    rfl
  | (k, Val.dict d) :: rest =>
    intro hm c hdisj
    obtain ⟨hdf, hct, hd, hrest⟩ := goodB_dict hm
    have hkc : k ∉ keysOf c := hdisj k (List.mem_cons_self k (keysOf rest))
    rw [flatten_dict, expandFold_append]
    rcases hfd : flatten_keys d with _ | ⟨⟨j, v⟩, es⟩
    · have hdisj' : ∀ k2, k2 ∈ keysOf rest → k2 ∉ keysOf c := by
        intro k2 hk2
        exact hdisj k2 (List.mem_cons_of_mem k hk2)
      simp only [List.map_nil]
      rw [expandFold_nil, expandFold_flatten rest hrest c hdisj',
        pruneEmpty_dict_nil k rest hfd]
    · simp only [List.map_cons]
      rw [expandFold_cons]
      have hc1 : merge_dicts c (chainOf (k ++ '.' :: j) (Val.prim v))
          = c ++ [(k, Val.dict (chainOf j (Val.prim v)))] := by
        rw [chainOf_eq_pathDict, splitDot_append j hdf,
          pathDict_cons k _ (splitDot_ne_nil j), ← chainOf_eq_pathDict,
          merge_single, mergeKey_absent _ hkc]
      rw [hc1, expandFold_prefixed hdf es c [] (chainOf j (Val.prim v)) hkc]
      have hC : expandFold (chainOf j (Val.prim v)) es = pruneEmpty d := by
        have h0 : expandFold ([] : NDict α) (flatten_keys d) = pruneEmpty d := by
          rw [expandFold_flatten d hd [] (fun k2 _ hmem => (List.not_mem_nil k2) hmem),
            List.nil_append]
        rw [hfd, expandFold_cons, merge_nil_chain] at h0
        exact h0
      rw [hC]
      have hdisj' : ∀ k2, k2 ∈ keysOf rest →
          k2 ∉ keysOf (c ++ (k, Val.dict (pruneEmpty d)) :: []) := by
        intro k2 hk2
        rw [keysOf_append]
        intro hmem
        rcases List.mem_append.mp hmem with h1 | h1
        · exact hdisj k2 (List.mem_cons_of_mem k hk2) h1
        · have hk2k : k2 = k := List.mem_singleton.mp h1
          exact hct (hk2k ▸ hk2)
      rw [expandFold_flatten rest hrest _ hdisj',
        pruneEmpty_dict_cons k rest hfd, List.append_assoc]
      rfl
termination_by sizeOf m
decreasing_by all_goals (simp_wf; try omega)

/-! ### Lookup and leaf values through pruning -/

theorem alookup_none_iff {k : Key} {l : List (Key × β)} :
    alookup k l = none ↔ k ∉ keysOf l := by
  induction l with
  | nil =>
    constructor
    · intro _ h
      exact List.not_mem_nil k h
    · intro _
      rfl
  | cons kv rest ih =>
    obtain ⟨k1, v⟩ := kv
    by_cases hk : k1 = k
    · subst hk
      constructor
      · intro h
        rw [alookup, if_pos rfl] at h
        cases h
      · intro h
        exact absurd (List.mem_cons_self k1 (keysOf rest)) h
    · constructor
      · intro h hmem
        rw [alookup, if_neg hk] at h
        rcases List.mem_cons.mp hmem with h1 | h1
        · exact hk h1.symm
        · exact ih.mp h h1
      · intro h
        rw [alookup, if_neg hk]
        exact ih.mpr (fun hmem => h (List.mem_cons_of_mem k1 hmem))

theorem keysOf_pruneEmpty_sub {k : Key} :
    ∀ {m : NDict α}, k ∈ keysOf (pruneEmpty m) → k ∈ keysOf m := by
  intro m
  induction m with
  | nil => rw [pruneEmpty_nil]; exact fun h => h
  | cons kv rest ih =>
    obtain ⟨k1, v1⟩ := kv
    cases v1 with
    | prim v =>
      rw [pruneEmpty_prim]
      intro h
      rcases List.mem_cons.mp h with h1 | h1
      · exact List.mem_cons.mpr (Or.inl h1)
      · exact List.mem_cons.mpr (Or.inr (ih h1))
    | dict d =>
      rcases hfd : flatten_keys d with _ | ⟨e, es⟩
      · rw [pruneEmpty_dict_nil k1 rest hfd]
        intro h
        exact List.mem_cons.mpr (Or.inr (ih h))
      · rw [pruneEmpty_dict_cons k1 rest hfd]
        intro h
        rcases List.mem_cons.mp h with h1 | h1
        · exact List.mem_cons.mpr (Or.inl h1)
        · exact List.mem_cons.mpr (Or.inr (ih h1))

theorem alookup_prune_of_none {k : Key} {m : NDict α}
    (h : alookup k m = none) : alookup k (pruneEmpty m) = none :=
  alookup_none_iff.mpr (fun hmem =>
    alookup_none_iff.mp h (keysOf_pruneEmpty_sub hmem))

theorem goodB_tail {k1 : Key} {v1 : Val α} {rest : NDict α}
    (h : goodB ((k1, v1) :: rest) = true) : goodB rest = true := by
  cases v1 with
  | prim v => exact (goodB_prim h).2.2
  | dict d => exact (goodB_dict h).2.2.2

theorem alookup_prune_prim {k : Key} {v : α} :
    ∀ {m : NDict α}, goodB m = true → alookup k m = some (Val.prim v) →
    alookup k (pruneEmpty m) = some (Val.prim v) := by
  intro m
  induction m with
  | nil => intro _ h; cases h
  | cons kv rest ih =>
    obtain ⟨k1, v1⟩ := kv
    intro hm h
    by_cases hk : k1 = k
    · rw [alookup, if_pos hk] at h
      injection h with h
      subst h
      rw [pruneEmpty_prim, alookup, if_pos hk]
    · rw [alookup, if_neg hk] at h
      have hrest := goodB_tail hm
      cases v1 with
      | prim w =>
        rw [pruneEmpty_prim, alookup, if_neg hk]
        exact ih hrest h
      | dict d =>
        rcases hfd : flatten_keys d with _ | ⟨e, es⟩
        · rw [pruneEmpty_dict_nil k1 rest hfd]
          exact ih hrest h
        · rw [pruneEmpty_dict_cons k1 rest hfd, alookup, if_neg hk]
          exact ih hrest h

theorem alookup_prune_dict {k : Key} {d : NDict α} :
    ∀ {m : NDict α}, goodB m = true → alookup k m = some (Val.dict d) →
    (flatten_keys d = [] → alookup k (pruneEmpty m) = none) ∧
    (∀ e es, flatten_keys d = e :: es →
      alookup k (pruneEmpty m) = some (Val.dict (pruneEmpty d))) := by
  intro m
  induction m with
  | nil => intro _ h; cases h
  | cons kv rest ih =>
    obtain ⟨k1, v1⟩ := kv
    intro hm h
    by_cases hk : k1 = k
    · rw [alookup, if_pos hk] at h
      injection h with h
      subst h
      constructor
      · intro hfd
        rw [pruneEmpty_dict_nil k1 rest hfd]
        have hct : k1 ∉ keysOf rest := (goodB_dict hm).2.1
        refine alookup_none_iff.mpr (fun hmem => ?_)
        exact hct (hk ▸ keysOf_pruneEmpty_sub hmem)
      · intro e es hfd
        rw [pruneEmpty_dict_cons k1 rest hfd, alookup, if_pos hk]
    · rw [alookup, if_neg hk] at h
      have hrest := goodB_tail hm
      cases v1 with
      | prim w =>
        rw [pruneEmpty_prim]
        constructor
        · intro hfd
          rw [alookup, if_neg hk]
          exact (ih hrest h).1 hfd
        · intro e es hfd
          rw [alookup, if_neg hk]
          exact (ih hrest h).2 e es hfd
      | dict d1 =>
        rcases hfd1 : flatten_keys d1 with _ | ⟨e1, es1⟩
        · rw [pruneEmpty_dict_nil k1 rest hfd1]
          exact ih hrest h
        · rw [pruneEmpty_dict_cons k1 rest hfd1]
          constructor
          · intro hfd
            rw [alookup, if_neg hk]
            exact (ih hrest h).1 hfd
          · intro e es hfd
            rw [alookup, if_neg hk]
            exact (ih hrest h).2 e es hfd

theorem goodB_alookup_dict {k : Key} {d : NDict α} :
    ∀ {m : NDict α}, goodB m = true → alookup k m = some (Val.dict d) →
    goodB d = true := by
  intro m
  induction m with
  | nil => intro _ h; cases h
  | cons kv rest ih =>
    obtain ⟨k1, v1⟩ := kv
    intro hm h
    by_cases hk : k1 = k
    · rw [alookup, if_pos hk] at h
      cases v1 with
      | prim w =>
        injection h with h2
        exact Val.noConfusion h2
      | dict d1 =>
        injection h with h2
        injection h2 with h3
        subst h3
        exact (goodB_dict hm).2.2.1
    · rw [alookup, if_neg hk] at h
      exact ih (goodB_tail hm) h

theorem flatten_nil_lookup {d : NDict α} (hd : flatten_keys d = []) (k : Key) :
    alookup k d = none ∨
      ∃ d2, alookup k d = some (Val.dict d2) ∧ flatten_keys d2 = [] := by
  induction d with
  | nil => exact Or.inl rfl
  | cons kv rest ih =>
    obtain ⟨k1, v1⟩ := kv
    cases v1 with
    | prim v =>
      rw [flatten_prim] at hd
      cases hd
    | dict d1 =>
      rw [flatten_dict] at hd
      obtain ⟨ha, hb⟩ := List.append_eq_nil.mp hd
      have h1 : flatten_keys d1 = [] := List.map_eq_nil_iff.mp ha
      by_cases hk : k1 = k
      · right
        exact ⟨d1, by rw [alookup, if_pos hk], h1⟩
      · rcases ih hb with h | ⟨d2, h, h2⟩
        · left
          rw [alookup, if_neg hk]
          exact h
        · right
          refine ⟨d2, ?_, h2⟩
          rw [alookup, if_neg hk]
          exact h

theorem leafAt_flatten_nil {p : List Key} :
    ∀ {d : NDict α}, flatten_keys d = [] → leafAt p d = none := by
  induction p with
  | nil => intro d _; rfl
  | cons k tail ih =>
    intro d hd
    cases tail with
    | nil =>
      rcases flatten_nil_lookup hd k with h | ⟨d2, h, _⟩
      · simp [leafAt, h]
      · simp [leafAt, h]
    | cons k2 rest =>
      rcases flatten_nil_lookup hd k with h | ⟨d2, h, h2⟩
      · simp [leafAt, h]
      · simp only [leafAt, h]
        exact ih h2

/-- Pruning leafless entries changes no leaf value. -/
theorem leafAt_pruneEmpty (p : List Key) :
    ∀ (m : NDict α), goodB m = true → leafAt p (pruneEmpty m) = leafAt p m := by
  induction p with
  | nil => intro m _; rfl
  | cons k tail ih =>
    intro m hm
    cases tail with
    | nil =>
      rcases halo : alookup k m with _ | v
      · simp [leafAt, halo, alookup_prune_of_none halo]
      · cases v with
        | prim a => simp [leafAt, halo, alookup_prune_prim hm halo]
        | dict d =>
          rcases hfd : flatten_keys d with _ | ⟨e, es⟩
          · simp [leafAt, halo, (alookup_prune_dict hm halo).1 hfd]
          · simp [leafAt, halo, (alookup_prune_dict hm halo).2 e es hfd]
    | cons k2 rest =>
      rcases halo : alookup k m with _ | v
      · simp [leafAt, halo, alookup_prune_of_none halo]
      · cases v with
        | prim a => simp [leafAt, halo, alookup_prune_prim hm halo]
        | dict d =>
          rcases hfd : flatten_keys d with _ | ⟨e, es⟩
          · simp only [leafAt, halo, (alookup_prune_dict hm halo).1 hfd]
            exact (leafAt_flatten_nil hfd).symm
          · simp only [leafAt, halo, (alookup_prune_dict hm halo).2 e es hfd]
            exact ih d (goodB_alookup_dict hm halo)

theorem expand_primify (l : List (Key × α)) :
    expand_dict (primify l) = expandFold [] l := by
  simp [expand_dict, primify, expandFold, List.foldl_map]

theorem flatten_primify (d : List (Key × α)) : flatten_keys (primify d) = d := by
  induction d with
  | nil => rw [show primify ([] : List (Key × α)) = [] from rfl, flatten_nil]
  | cons kv rest ih =>
    obtain ⟨k, v⟩ := kv
    rw [show primify ((k, v) :: rest) = (k, Val.prim v) :: primify rest from rfl,
      flatten_prim, ih]

theorem nodupKeysB_cons {k : Key} {v : β} {rest : List (Key × β)}
    (h : nodupKeysB ((k, v) :: rest) = true) :
    k ∉ keysOf rest ∧ nodupKeysB rest = true := by
  simp only [nodupKeysB, Bool.and_eq_true, Bool.not_eq_true'] at h
  exact ⟨not_mem_of_not_contains h.1, h.2⟩

/-- Folding already-flat dot-free entries with `expand_dict`'s step simply
appends them. -/
theorem foldl_expand_flat :
    ∀ (b : NDict α) (c : NDict α),
    (∀ k, k ∈ keysOf b → dotFree k = true) → nodupKeysB b = true →
    (∀ k, k ∈ keysOf b → k ∉ keysOf c) →
    b.foldl (fun c kv => merge_dicts c (chainOf kv.1 kv.2)) c = c ++ b := by
  intro b
  induction b with
  | nil =>
    intro c _ _ _
    rw [List.foldl_nil, List.append_nil]
  | cons kv rest ih =>
    intro c hdf hnd hdisj
    obtain ⟨k, v⟩ := kv
    have hdfk : dotFree k = true := hdf k (List.mem_cons_self k (keysOf rest))
    have hkc : k ∉ keysOf c := hdisj k (List.mem_cons_self k (keysOf rest))
    obtain ⟨hct, hnd'⟩ := nodupKeysB_cons hnd
    rw [List.foldl_cons,
      show merge_dicts c (chainOf k v) = c ++ [(k, v)] by
        rw [chainOf_eq_pathDict, splitDot_dotFree hdfk,
          show pathDict [k] v = [(k, v)] from rfl, merge_single,
          mergeKey_absent _ hkc],
      ih (c ++ [(k, v)]) (fun k2 hk2 => hdf k2 (List.mem_cons_of_mem k hk2))
        hnd'
        (by
          intro k2 hk2
          rw [keysOf_append]
          intro hmem
          rcases List.mem_append.mp hmem with h1 | h1
          · exact hdisj k2 (List.mem_cons_of_mem k hk2) h1
          · have hk2k : k2 = k := List.mem_singleton.mp h1
            exact hct (hk2k ▸ hk2)),
      List.append_assoc]
    rfl

/-! ### Claim theorems for the pure transforms -/

/-- C2: for every acyclic nested mapping `m` whose keys (at every nesting
level, as in any Python dict) are pairwise distinct and contain no dot
character, `expand_dict` applied to the dictionary formed from
`flatten_keys m` reproduces `m`'s leaf value at every path of key
segments (and hence at every dotted path). -/
theorem c2_round_trip (m : NDict α) (hm : goodB m = true) :
    ∀ p : List Key,
      leafAt p (expand_dict (primify (flatten_keys m))) = leafAt p m := by
  intro p
  rw [expand_primify,
    expandFold_flatten m hm [] (fun k _ hmem => (List.not_mem_nil k) hmem),
    List.nil_append, leafAt_pruneEmpty p m hm]

/-- Witness for C2 at the config `{'a': {'x': 1}, 'b': 2}` and the path
`a.x`. -/
theorem c2_round_trip_witness :
    goodB ([(['a'], Val.dict [(['x'], Val.prim (1 : Nat))]),
            (['b'], Val.prim 2)] : NDict Nat) = true ∧
    leafAt [['a'], ['x']]
        (expand_dict (primify (flatten_keys
          ([(['a'], Val.dict [(['x'], Val.prim (1 : Nat))]),
            (['b'], Val.prim 2)] : NDict Nat))))
      = leafAt [['a'], ['x']]
          ([(['a'], Val.dict [(['x'], Val.prim (1 : Nat))]),
            (['b'], Val.prim 2)] : NDict Nat) :=
  ⟨by simp [goodB, dotFree, keysOf],
   c2_round_trip _ (by simp [goodB, dotFree, keysOf]) [['a'], ['x']]⟩

/-- C6: `flatten_keys` is the depth-first flattening: it maps a single-level
mapping (all values leaves) to exactly its entry list; a leaf entry
contributes its own (key, value) pair in place; a nested-dictionary entry
contributes the recursively flattened sub-entries, each key prefixed with
the parent key and a dot, before the flattening of the sibling entries that
follow; and the empty mapping flattens to the empty list. -/
theorem c6_flatten_contract :
    (∀ d : List (Key × α), flatten_keys (primify d) = d) ∧
    (∀ (k : Key) (v : α) (rest : NDict α),
      flatten_keys ((k, Val.prim v) :: rest) = (k, v) :: flatten_keys rest) ∧
    (∀ (k : Key) (d rest : NDict α),
      flatten_keys ((k, Val.dict d) :: rest)
        = ((flatten_keys d).map (fun p => (k ++ '.' :: p.1, p.2)))
            ++ flatten_keys rest) ∧
    flatten_keys ([] : NDict α) = [] :=
  ⟨flatten_primify, flatten_prim, flatten_dict, flatten_nil⟩

/-- C9: `expand_dict` is the identity on any flat mapping whose keys are
pairwise distinct (a Python dict) and contain no dot character. -/
theorem c9_expand_identity (b : NDict α)
    (hdf : (keysOf b).all dotFree = true) (hnd : nodupKeysB b = true) :
    expand_dict b = b := by
  have h := foldl_expand_flat b []
    (fun k hk => List.all_eq_true.mp hdf k hk) hnd
    (fun k _ hmem => (List.not_mem_nil k) hmem)
  rw [List.nil_append] at h
  exact h

/-- Witness for C9 at the flat mapping `{'a': 1, 'b': {'x': 2}}` (a value
that is itself a dictionary is untouched as well). -/
theorem c9_expand_identity_witness :
    (keysOf ([(['a'], Val.prim (1 : Nat)),
              (['b'], Val.dict [(['x'], Val.prim 2)])] : NDict Nat)).all
        dotFree = true ∧
    nodupKeysB ([(['a'], Val.prim (1 : Nat)),
                 (['b'], Val.dict [(['x'], Val.prim 2)])] : NDict Nat) = true ∧
    expand_dict ([(['a'], Val.prim (1 : Nat)),
                  (['b'], Val.dict [(['x'], Val.prim 2)])] : NDict Nat)
      = [(['a'], Val.prim (1 : Nat)), (['b'], Val.dict [(['x'], Val.prim 2)])] :=
  ⟨by decide, by decide,
   c9_expand_identity _ (by decide) (by decide)⟩

/-- C10: an entry whose value is an empty dictionary contributes nothing to
`flatten_keys` (in particular `flatten_keys {'a': {}} = []`), and a
subsequent `expand_dict` of the flattened form does not reconstruct it. -/
theorem c10_empty_dict_dropped :
    (∀ (k : Key) (rest : NDict α),
      flatten_keys ((k, Val.dict []) :: rest) = flatten_keys rest) ∧
    flatten_keys ([(['a'], Val.dict [])] : NDict α) = [] ∧
    expand_dict (primify (flatten_keys ([(['a'], Val.dict [])] : NDict Nat)))
      = [] := by
  refine ⟨?_, ?_, ?_⟩
  · intro k rest
    rw [flatten_dict, flatten_nil, List.map_nil, List.nil_append]
  · rw [flatten_dict, flatten_nil, List.map_nil, List.nil_append]
  · rw [flatten_dict, flatten_nil, List.map_nil, List.nil_append]
    rfl

/-! ### The deep-merge characterization (for C7) -/

/-- `mergeVal` lifted to an optional existing value: with no existing value
the new value is simply taken. -/
def mergeValO (o : Option (Val α)) (v : Val α) : Val α :=
  match o with
  | some v1 => mergeVal v1 v
  | none => v

theorem mergeVal_prim_left (a : α) (v : Val α) :
    mergeVal (Val.prim a) v = v := by
  cases v <;> rfl

theorem mergeVal_prim_right (v1 : Val α) (a : α) :
    mergeVal v1 (Val.prim a) = Val.prim a := by
  cases v1 <;> rfl

theorem mergeVal_dict_dict (m1 m2 : NDict α) :
    mergeVal (Val.dict m1) (Val.dict m2) = Val.dict (merge_dicts m1 m2) := rfl

/-- The value `merge_dicts` leaves at a key, as a function of the two
values either side binds (if any). -/
def mergeLookup (o1 o2 : Option (Val α)) : Option (Val α) :=
  match o2 with
  | none => o1
  | some v2 => some (mergeValO o1 v2)

theorem mergeValO_none (v : Val α) : mergeValO none v = v := rfl

theorem mergeValO_some (v1 v : Val α) :
    mergeValO (some v1) v = mergeVal v1 v := rfl

theorem alookup_nil (k : Key) : alookup k ([] : List (Key × β)) = none := rfl

theorem alookup_cons (k k1 : Key) (v : β) (rest : List (Key × β)) :
    alookup k ((k1, v) :: rest)
      = if k1 = k then some v else alookup k rest := rfl

theorem alookup_cons_eq {k1 k : Key} (v : β) (rest : List (Key × β))
    (hk : k1 = k) : alookup k ((k1, v) :: rest) = some v := by
  rw [alookup_cons, if_pos hk]

theorem alookup_cons_ne {k1 k : Key} (v : β) (rest : List (Key × β))
    (hk : ¬ k1 = k) : alookup k ((k1, v) :: rest) = alookup k rest := by
  rw [alookup_cons, if_neg hk]

theorem alookup_mergeKey_self (k : Key) (v : Val α) :
    ∀ d1 : NDict α,
      alookup k (mergeKey d1 k v) = some (mergeValO (alookup k d1) v) := by
  intro d1
  induction d1 with
  | nil =>
    rw [mergeKey_nil, alookup_nil, alookup_cons_eq v ([] : NDict α) rfl,
      mergeValO_none]
  | cons kv d ih =>
    obtain ⟨k1, v1⟩ := kv
    by_cases hk : k1 = k
    · rw [mergeKey_cons_eq v1 v d hk, alookup_cons_eq _ _ hk,
        alookup_cons_eq _ _ hk, mergeValO_some]
    · rw [mergeKey_cons_ne v1 v d hk, alookup_cons_ne _ _ hk,
        alookup_cons_ne _ _ hk, ih]

theorem alookup_mergeKey_other {kk k : Key} (hne : kk ≠ k) (v : Val α) :
    ∀ d1 : NDict α, alookup kk (mergeKey d1 k v) = alookup kk d1 := by
  intro d1
  induction d1 with
  | nil =>
    rw [mergeKey_nil, alookup_nil,
      alookup_cons_ne v ([] : NDict α) (fun hh : k = kk => hne hh.symm),
      alookup_nil]
  | cons kv d ih =>
    obtain ⟨k1, v1⟩ := kv
    by_cases hk : k1 = k
    · subst hk
      rw [mergeKey_cons_eq v1 v d rfl,
        alookup_cons_ne _ _ (fun hh : k1 = kk => hne hh.symm),
        alookup_cons_ne _ _ (fun hh : k1 = kk => hne hh.symm)]
    · rw [mergeKey_cons_ne v1 v d hk]
      by_cases hk1 : k1 = kk
      · rw [alookup_cons_eq _ _ hk1, alookup_cons_eq _ _ hk1]
      · rw [alookup_cons_ne _ _ hk1, alookup_cons_ne _ _ hk1, ih]

theorem mergeLookup_none_right (o : Option (Val α)) :
    mergeLookup o none = o := rfl

/-- Lookup through `merge_dicts`: the key's value is the deep merge of the
two sides' values at that key. -/
theorem alookup_merge_dicts (kk : Key) :
    ∀ (d2 : NDict α), nodupKeysB d2 = true → ∀ d1 : NDict α,
      alookup kk (merge_dicts d1 d2)
        = mergeLookup (alookup kk d1) (alookup kk d2) := by
  intro d2
  induction d2 with
  | nil =>
    intro _ d1
    rw [merge_nil, show alookup kk ([] : NDict α) = none from rfl,
      mergeLookup_none_right]
  | cons kv rest ih =>
    intro hnd d1
    obtain ⟨k, v⟩ := kv
    obtain ⟨hct, hnd'⟩ := nodupKeysB_cons hnd
    rw [merge_cons, ih hnd' (mergeKey d1 k v)]
    by_cases hk : k = kk
    · subst hk
      rw [alookup_mergeKey_self, alookup_none_iff.mpr hct,
        mergeLookup_none_right, alookup_cons_eq v rest rfl]
      rfl
    · rw [alookup_mergeKey_other (fun hh : kk = k => hk hh.symm),
        alookup_cons_ne v rest hk]

/-! ### Last-applied value wins along an identical path (for C7) -/

theorem merge_pathDict_last :
    ∀ (segs : List Key) (v1 v2 : α), segs ≠ [] →
      merge_dicts (pathDict segs (Val.prim v1)) (pathDict segs (Val.prim v2))
        = pathDict segs (Val.prim v2) := by
  intro segs
  induction segs with
  | nil => intro v1 v2 h; exact absurd rfl h
  | cons s tail ih =>
    intro v1 v2 _
    cases tail with
    | nil =>
      rw [show pathDict [s] (Val.prim v1) = [(s, Val.prim v1)] from rfl,
        show pathDict [s] (Val.prim v2) = [(s, Val.prim v2)] from rfl,
        merge_single, mergeKey_cons_eq _ _ _ rfl, mergeVal_prim_right]
    | cons s2 rest =>
      rw [pathDict_cons s _ (by simp), pathDict_cons s _ (by simp),
        merge_single, mergeKey_cons_eq _ _ _ rfl, mergeVal_dict_dict,
        ih v1 v2 (by simp)]

theorem leafAt_pathDict_self :
    ∀ (segs : List Key) (v : α), segs ≠ [] →
      leafAt segs (pathDict segs (Val.prim v)) = some v := by
  intro segs
  induction segs with
  | nil => intro v h; exact absurd rfl h
  | cons s tail ih =>
    intro v _
    cases tail with
    | nil => simp [pathDict, leafAt, alookup]
    | cons s2 rest =>
      rw [pathDict_cons s _ (by simp)]
      simp only [leafAt, alookup, if_pos rfl]
      exact ih v (by simp)

/-- C7: `expand_dict` processes the flat bindings in input order, turning
each key into the nested single-key chain obtained by splitting the key on
dots, and deep-merges each chain into the accumulated result; the merge
recurses when both sides bind a key to dictionaries and otherwise the later
value overwrites the earlier one; consequently for two flat bindings
denoting the same leaf path the last-applied value wins. -/
theorem c7_expand_deep_merge (b d1 d2 : NDict α) (kk : Key)
    (hnd : nodupKeysB d2 = true) (k : Key) (v1 v2 : α) :
    expand_dict b
      = b.foldl
          (fun c kv => merge_dicts c (pathDict (splitDot kv.1) kv.2)) [] ∧
    alookup kk (merge_dicts d1 d2)
      = mergeLookup (alookup kk d1) (alookup kk d2) ∧
    leafAt (splitDot k) (expand_dict [(k, Val.prim v1), (k, Val.prim v2)])
      = some v2 := by
  refine ⟨?_, alookup_merge_dicts kk d2 hnd d1, ?_⟩
  · simp only [expand_dict, chainOf_eq_pathDict]
  · rw [show expand_dict [(k, Val.prim v1), (k, Val.prim v2)]
        = merge_dicts (merge_dicts ([] : NDict α) (chainOf k (Val.prim v1)))
            (chainOf k (Val.prim v2)) from rfl,
      merge_nil_chain, chainOf_eq_pathDict, chainOf_eq_pathDict,
      merge_pathDict_last _ v1 v2 (splitDot_ne_nil k),
      leafAt_pathDict_self _ v2 (splitDot_ne_nil k)]

/-- Witness for C7 at the flat mappings `{'a': 1}` (merged into `{}`) and
the duplicated binding `a.x ↦ 1, a.x ↦ 2`. -/
theorem c7_expand_deep_merge_witness :
    nodupKeysB ([(['a'], Val.prim (1 : Nat))] : NDict Nat) = true ∧
    (expand_dict ([(['b', '.', 'x'], Val.prim (5 : Nat))] : NDict Nat)
        = [(['b', '.', 'x'], Val.prim (5 : Nat))].foldl
            (fun c kv => merge_dicts c (pathDict (splitDot kv.1) kv.2)) [] ∧
      alookup ['a']
          (merge_dicts ([] : NDict Nat) [(['a'], Val.prim (1 : Nat))])
        = mergeLookup (alookup ['a'] ([] : NDict Nat))
            (alookup ['a'] [(['a'], Val.prim (1 : Nat))]) ∧
      leafAt (splitDot ['a', '.', 'x'])
          (expand_dict [(['a', '.', 'x'], Val.prim (1 : Nat)),
                        (['a', '.', 'x'], Val.prim 2)])
        = some 2) :=
  ⟨by decide,
   c7_expand_deep_merge [(['b', '.', 'x'], Val.prim (5 : Nat))] []
     [(['a'], Val.prim (1 : Nat))] ['a'] (by decide) ['a', '.', 'x'] 1 2⟩

/-! ### The merge orchestrator

The command-line parser (`argparse`) is an external collaborator of the
repository; the spec describes only the contract the orchestrator relies
on (registration of an argument with a name, a default and a coercion
type; conflict-resolving re-registration; token parsing returning the
resolved values and the unrecognized tokens; an error path for failed
coercions).  Those collaborator pieces are modelled from the spec below;
the orchestrator logic itself (`parse_known_args` lines 171-195 and
`parse_args` lines 131-135 of `customargparse.py`) is translated from the
source. -/

/-- A Python runtime value as it occurs in the configurations of the
scenarios: integer, string, or boolean. -/
inductive PyVal where
  | int : Int → PyVal
  | str : Key → PyVal
  | bool : Bool → PyVal
deriving DecidableEq

/-- A Python runtime type, as produced by `type(v)` on a config value. -/
inductive PyType where
  | int : PyType
  | str : PyType
  | bool : PyType
deriving DecidableEq

/-- Python `type(v)`. -/
def pyTypeOf : PyVal → PyType
  | PyVal.int _ => PyType.int
  | PyVal.str _ => PyType.str
  | PyVal.bool _ => PyType.bool

/-- Decimal digits to a natural number. -/
def digitsToNat (s : Key) : Nat :=
  s.foldl (fun n c => 10 * n + (c.toNat - '0'.toNat)) 0

/-- Python `int(token)` on a decimal literal with an optional sign;
`none` models the `ValueError` raised for a non-numeric token. -/
def parseInt : Key → Option Int
  | '-' :: rest =>
    if !rest.isEmpty && rest.all Char.isDigit
    then some (-(digitsToNat rest : Int)) else none
  | '+' :: rest =>
    if !rest.isEmpty && rest.all Char.isDigit
    then some ((digitsToNat rest : Int)) else none
  | s =>
    if !s.isEmpty && s.all Char.isDigit
    then some ((digitsToNat s : Int)) else none

/-- Coercion of a raw command-line token exactly as argparse applies the
registered `type` callable to it: `int(...)` can fail with an error;
`str(...)` is the identity; `bool(...)` is Python truthiness of a string,
true exactly when the token is non-empty.  `none` models the coercion
error surfaced through the parser's error path. -/
def coerce : PyType → Key → Option PyVal
  | PyType.int, s => (parseInt s).map PyVal.int
  | PyType.str, s => some (PyVal.str s)
  | PyType.bool, s => some (PyVal.bool (!s.isEmpty))

/-- Modelled from the spec: a declared argument of the command-line parser
collaborator: its option strings, destination name, default value and
coercion type. -/
structure ArgSpec where
  options : List Key
  dest : Key
  default : PyVal
  type : PyType
deriving DecidableEq

/-- An existing declaration with the option strings of a newly registered
declaration removed. -/
def stripConflict (s t : ArgSpec) : ArgSpec :=
  ArgSpec.mk (t.options.filter (fun o => !(s.options.contains o)))
    t.dest t.default t.type

/-- Modelled from the spec: the `conflict_handler='resolve'` policy set by
`CustomArgumentParser.__init__`: every previously declared argument loses
the option strings of the new declaration (and disappears entirely when
none remain). -/
def resolveStrip (s : ArgSpec) : List ArgSpec → List ArgSpec
  | [] => []
  | t :: rest =>
    if (stripConflict s t).options.isEmpty then resolveStrip s rest
    else stripConflict s t :: resolveStrip s rest

/-- Modelled from the spec: registration of a new argument under the
conflict-resolving policy: strip the conflicts, then append the new
declaration. -/
def resolveAdd (specs : List ArgSpec) (s : ArgSpec) : List ArgSpec :=
  resolveStrip s specs ++ [s]

/-- The argument the orchestrator registers for one flat config entry
(source line 182): `add_argument('--' + k, default=v, type=type(v))`. -/
def mkConfigSpec (kv : Key × PyVal) : ArgSpec :=
  ArgSpec.mk ['-' :: '-' :: kv.1] kv.1 kv.2 (pyTypeOf kv.2)

/-- The registration loop of source lines 181-182. -/
def registerConfigArgs (declared : List ArgSpec)
    (flat : List (Key × PyVal)) : List ArgSpec :=
  flat.foldl (fun sp kv => resolveAdd sp (mkConfigSpec kv)) declared

/-- The declared argument that consumes a given option token, if any. -/
def findSpec (tok : Key) : List ArgSpec → Option ArgSpec
  | [] => none
  | s :: rest => if s.options.contains tok then some s else findSpec tok rest

/-- Modelled from the spec: one left-to-right scan of the token list by the
parser collaborator: a token matching a declared option consumes the next
token as its value and coerces it (a failed coercion is an error); any
other token is unrecognized and kept, in order. -/
def scanTokens (specs : List ArgSpec) :
    List Key → Except Key (List (Key × PyVal) × List Key)
  | [] => Except.ok ([], [])
  | t :: rest =>
    match findSpec t specs with
    | some s =>
      match rest with
      | [] => Except.error t
      | v :: rest2 =>
        match coerce s.type v with
        | some pv =>
          (scanTokens specs rest2).map (fun r => ((s.dest, pv) :: r.1, r.2))
        | none => Except.error t
    | none => (scanTokens specs rest).map (fun r => (r.1, t :: r.2))

/-- Replace-or-append assignment into a parsed namespace. -/
def setKey (ns : List (Key × PyVal)) (k : Key) (v : PyVal) :
    List (Key × PyVal) :=
  match ns with
  | [] => [(k, v)]
  | (k1, v1) :: rest =>
    if k1 = k then (k1, v) :: rest else (k1, v1) :: setKey rest k v

/-- The namespace of defaults of the declared arguments. -/
def applyDefaults (specs : List ArgSpec) : List (Key × PyVal) :=
  specs.foldl (fun ns s => setKey ns s.dest s.default) []

/-- Modelled from the spec: the collaborator's parse of a token list
against the declared arguments: the defaults overlaid with every
successfully coerced explicit assignment, together with the unrecognized
tokens - or the coercion error. -/
def parseTokens (specs : List ArgSpec) (tokens : List Key) :
    Except Key (List (Key × PyVal) × List Key) :=
  (scanTokens specs tokens).map
    (fun r => (r.1.foldl (fun ns kv => setKey ns kv.1 kv.2)
        (applyDefaults specs), r.2))

/-- Source lines 188-193, translated verbatim: every key of the parsed
namespace that is also a key of the flat config and is not itself a member
of `sys.argv` is reset to the config value.  (Note the membership test uses
the bare key, while the tokens on `sys.argv` carry a leading `--`.) -/
def overridePriority (args_dict : List (Key × PyVal))
    (config_dict : List (Key × PyVal)) (argv : List Key) :
    List (Key × PyVal) :=
  args_dict.map (fun kv =>
    match alookup kv.1 config_dict with
    | some cv => if argv.contains kv.1 then kv else (kv.1, cv)
    | none => kv)

/-- Source `parse_known_args` (lines 171-195): flatten the loaded config,
register one argument per flat entry, re-parse the whole command line, and
run the override loop.  The configuration load is an external collaborator,
so the nested mapping is a parameter; `argv` is the whole of `sys.argv`
(program name first) and the parser scans `argv[1:]`. -/
def parse_known_args (declared : List ArgSpec) (config : NDict PyVal)
    (argv : List Key) : Except Key (List (Key × PyVal) × List Key) :=
  let flat_config := flatten_keys config
  let specs := registerConfigArgs declared flat_config
  (parseTokens specs (argv.drop 1)).map
    (fun r => (overridePriority r.1 flat_config argv, r.2))

/-- Python `' '.join(tokens)`. -/
def joinSpace : List Key → Key
  | [] => []
  | [t] => t
  | t :: t2 :: ts => t ++ ' ' :: joinSpace (t2 :: ts)

/-- The usage-error message of source lines 133-134. -/
def unrecMsg (unknown : List Key) : Key :=
  ("unrecognized arguments: ").toList ++ joinSpace unknown

/-- Source `parse_args` (lines 131-135): call `parse_known_args`; when
unrecognized tokens remain, fail through the parser's error path with the
message enumerating them, otherwise return the namespace. -/
def parse_args (declared : List ArgSpec) (config : NDict PyVal)
    (argv : List Key) : Except Key (List (Key × PyVal)) :=
  match parse_known_args declared config argv with
  | Except.error e => Except.error e
  | Except.ok r =>
    if r.2.isEmpty then Except.ok r.1 else Except.error (unrecMsg r.2)

/-- The program-declared `-c`/`--configfile` argument (the source requires
it; argparse would give it default `None` - the default is irrelevant to
the scenarios, which always pass `-c`). -/
def configfileSpec : ArgSpec :=
  ArgSpec.mk [("-c").toList, ("--configfile").toList]
    (("configfile").toList) (PyVal.str []) PyType.str

/-! ### Scenario inputs -/

/-- The priority-law config `{'a': 4, 'b': {'x': 1}}`. -/
def cfgPriority : NDict PyVal :=
  [(['a'], Val.prim (PyVal.int 4)),
   (['b'], Val.dict [(['x'], Val.prim (PyVal.int 1))])]

/-- The priority-law command line: `prog -c config.py --a 3`. -/
def argvPriority : List Key :=
  [("prog").toList, ("-c").toList, ("config.py").toList,
   ("--a").toList, ("3").toList]

/-- The unrecognized-token config `{'a': 4}`. -/
def cfgUnknown : NDict PyVal := [(['a'], Val.prim (PyVal.int 4))]

/-- The unrecognized-token command line:
`prog -c config.py --unknown_flag 5`. -/
def argvUnknown : List Key :=
  [("prog").toList, ("-c").toList, ("config.py").toList,
   ("--unknown_flag").toList, ("5").toList]

set_option maxRecDepth 10000

/-! ### Claim theorems for the orchestrator -/

/-- C1: evaluation of `parse_known_args` at the spec's priority-law
scenario: config `{'a': 4, 'b': {'x': 1}}`, `sys.argv` holding the literal
tokens `--a 3` (and no `--b.x` token).  The override loop of source lines
188-193 tests `key not in sys.argv` with the bare key `a`, but the literal
token on the command line is `--a`, so the test never fires and the config
value 4 overwrites the explicitly supplied 3.  The resolved value of `a`
is therefore 4 - not 3 as the claim (and the docstring's priority
`command-line > configuration file > defaults`) requires; `b.x` resolves
to 1 as claimed. -/
theorem c1_priority_eval :
    parse_known_args [configfileSpec] cfgPriority argvPriority
      = Except.ok
          ([(("configfile").toList, PyVal.str (("config.py").toList)),
            (['a'], PyVal.int 4),
            (['b', '.', 'x'], PyVal.int 1)], []) ∧
    argvPriority.contains (("--a").toList) = true ∧
    argvPriority.contains ['a'] = false := by
  refine ⟨?_, by decide, by decide⟩
  have hflat : flatten_keys cfgPriority
      = [(['a'], PyVal.int 4), (['b', '.', 'x'], PyVal.int 1)] := by
    simp [cfgPriority, flatten_keys]
  simp only [parse_known_args, hflat]
  rfl

/-- C3: the registered argument for a boolean config leaf carries coercion
type `bool` (source line 182: `type=type(v)`), and Python's `bool` applied
to a string is truthiness: ANY non-empty token - including the textual
token `False` - coerces to `True`, and only the empty token coerces to
`False`.  So the parse of `--flag False` against config `{'flag': True}`
resolves `flag` to `True`, contradicting the claim that the textual token
`False` yields the boolean false. -/
theorem c3_bool_truthy_eval :
    (mkConfigSpec ((("flag").toList), PyVal.bool true)).type = PyType.bool ∧
    coerce PyType.bool (("False").toList) = some (PyVal.bool true) ∧
    coerce PyType.bool (("0").toList) = some (PyVal.bool true) ∧
    coerce PyType.bool [] = some (PyVal.bool false) ∧
    scanTokens [mkConfigSpec ((("flag").toList), PyVal.bool true)]
        [("--flag").toList, ("False").toList]
      = Except.ok ([((("flag").toList), PyVal.bool true)], []) :=
  ⟨rfl, rfl, rfl, rfl, rfl⟩

/-! ### Registration lemmas (for C4 and C8) -/

theorem contains_iff_mem {l : List Key} {k : Key} :
    l.contains k = true ↔ k ∈ l := List.elem_iff

theorem contains_false_of_not_mem {l : List Key} {k : Key} (h : k ∉ l) :
    l.contains k = false := by
  rcases hb : l.contains k with _ | _
  · rfl
  · exact absurd (contains_iff_mem.mp hb) h

theorem bool_ne_true {b : Bool} (h : b = false) : ¬ b = true := by
  rw [h]
  exact Bool.false_ne_true

theorem findSpec_nil (tok : Key) : findSpec tok [] = none := rfl

theorem findSpec_cons (tok : Key) (s : ArgSpec) (rest : List ArgSpec) :
    findSpec tok (s :: rest)
      = if s.options.contains tok then some s else findSpec tok rest := rfl

theorem findSpec_append (tok : Key) :
    ∀ l1 l2 : List ArgSpec,
      findSpec tok (l1 ++ l2)
        = match findSpec tok l1 with
          | some x => some x
          | none => findSpec tok l2 := by
  intro l1 l2
  induction l1 with
  | nil => rfl
  | cons s rest ih =>
    rw [List.cons_append, findSpec_cons, findSpec_cons]
    rcases hb : s.options.contains tok with _ | _
    · rw [if_neg Bool.false_ne_true, if_neg Bool.false_ne_true, ih]
    · rw [if_pos rfl, if_pos rfl]

theorem mem_strip_not_conflict {s t : ArgSpec} {o : Key}
    (ho : o ∈ (stripConflict s t).options) : o ∉ s.options := by
  intro hmem
  have h2 : (!(s.options.contains o)) = true := (List.mem_filter.mp ho).2
  rw [contains_iff_mem.mpr hmem] at h2
  simp at h2

theorem findSpec_resolveStrip_conflicting {s : ArgSpec} {opt : Key}
    (h : opt ∈ s.options) :
    ∀ specs : List ArgSpec, findSpec opt (resolveStrip s specs) = none := by
  intro specs
  induction specs with
  | nil => rfl
  | cons t rest ih =>
    rw [resolveStrip]
    split
    · exact ih
    · rw [findSpec_cons,
        if_neg (bool_ne_true (contains_false_of_not_mem
          (fun hmem => mem_strip_not_conflict hmem h)))]
      exact ih

/-- Registering a declaration makes it the one found for each of its own
option strings: the newer declaration replaces any older one. -/
theorem findSpec_resolveAdd_self {s : ArgSpec} {opt : Key}
    (h : opt ∈ s.options) (specs : List ArgSpec) :
    findSpec opt (resolveAdd specs s) = some s := by
  rw [resolveAdd, findSpec_append, findSpec_resolveStrip_conflicting h]
  rw [findSpec_cons, if_pos (contains_iff_mem.mpr h)]

theorem isEmpty_false_of_mem {l : List Key} {o : Key} (h : o ∈ l) :
    l.isEmpty = false := by
  cases l with
  | nil => exact absurd h (List.not_mem_nil o)
  | cons a rest => rfl

/-- Registering a declaration leaves the lookup of a non-conflicting
option token pointing at the same (conflict-stripped) declaration. -/
theorem findSpec_resolveAdd_other {s : ArgSpec} {opt : Key}
    (h : opt ∉ s.options) :
    ∀ specs : List ArgSpec,
      findSpec opt (resolveAdd specs s)
        = Option.map (stripConflict s) (findSpec opt specs) := by
  intro specs
  induction specs with
  | nil =>
    rw [resolveAdd, resolveStrip, List.nil_append, findSpec_cons,
      if_neg (bool_ne_true (contains_false_of_not_mem h)), findSpec_nil]
    rfl
  | cons t rest ih =>
    rw [resolveAdd, resolveStrip] at *
    rcases hb : t.options.contains opt with _ | _
    · have hnm : opt ∉ (stripConflict s t).options := by
        intro hmem
        have h2 := List.mem_filter.mp hmem
        exact Bool.false_ne_true
          ((contains_iff_mem.mpr h2.1).symm.trans hb).symm
      split
      · rw [ih, findSpec_cons, if_neg (bool_ne_true hb)]
      · rw [List.cons_append, findSpec_cons,
          if_neg (bool_ne_true (contains_false_of_not_mem hnm)), ih,
          findSpec_cons, if_neg (bool_ne_true hb)]
    · have hmem : opt ∈ t.options := contains_iff_mem.mp hb
      have hmem2 : opt ∈ (stripConflict s t).options :=
        List.mem_filter.mpr ⟨hmem, by
          rw [contains_false_of_not_mem h]
          rfl⟩
      rw [if_neg (bool_ne_true (isEmpty_false_of_mem hmem2)),
        List.cons_append, findSpec_cons,
        if_pos (contains_iff_mem.mpr hmem2), findSpec_cons, if_pos hb]
      rfl

theorem registerConfigArgs_nil (declared : List ArgSpec) :
    registerConfigArgs declared [] = declared := rfl

theorem registerConfigArgs_cons (declared : List ArgSpec)
    (kv : Key × PyVal) (rest : List (Key × PyVal)) :
    registerConfigArgs declared (kv :: rest)
      = registerConfigArgs (resolveAdd declared (mkConfigSpec kv)) rest := rfl

theorem strip_mkConfigSpec_noconflict {s : ArgSpec} {k : Key} {v : PyVal}
    (h : ('-' :: '-' :: k : Key) ∉ s.options) :
    stripConflict s (mkConfigSpec (k, v)) = mkConfigSpec (k, v) := by
  rw [stripConflict, mkConfigSpec]
  rw [show (ArgSpec.mk ['-' :: '-' :: k] k v (pyTypeOf v)).options
      = ['-' :: '-' :: k] from rfl]
  rw [List.filter_cons, contains_false_of_not_mem h]
  rfl

theorem findSpec_registerConfig_preserve {k : Key} {v : PyVal} :
    ∀ (rest : List (Key × PyVal)) (sp : List ArgSpec),
      (∀ kv, kv ∈ rest → kv.1 ≠ k) →
      findSpec ('-' :: '-' :: k) sp = some (mkConfigSpec (k, v)) →
      findSpec ('-' :: '-' :: k) (registerConfigArgs sp rest)
        = some (mkConfigSpec (k, v)) := by
  intro rest
  induction rest with
  | nil => exact fun sp _ hfind => hfind
  | cons kv rest' ih =>
    intro sp hne hfind
    rw [registerConfigArgs_cons]
    have hopt : ('-' :: '-' :: k : Key) ∉ (mkConfigSpec kv).options := by
      intro hmem
      have h2 := List.mem_singleton.mp hmem
      have h3 : kv.1 = k := by
        injection h2 with _ h4
        injection h4 with _ h5
        exact h5.symm
      exact hne kv (List.mem_cons_self kv rest') h3
    have hfind2 : findSpec ('-' :: '-' :: k) (resolveAdd sp (mkConfigSpec kv))
        = some (mkConfigSpec (k, v)) := by
      rw [findSpec_resolveAdd_other hopt sp, hfind]
      show some (stripConflict (mkConfigSpec kv) (mkConfigSpec (k, v)))
        = some (mkConfigSpec (k, v))
      rw [strip_mkConfigSpec_noconflict hopt]
    exact ih (resolveAdd sp (mkConfigSpec kv))
      (fun kv2 hkv2 => hne kv2 (List.mem_cons_of_mem kv hkv2)) hfind2

/-- For each flat entry `(k, v)` (the key unique, as in any Python dict)
the registration loop ends with `--k` resolved to exactly the argument
`add_argument('--' + k, default=v, type=type(v))` registered. -/
theorem registered_spec :
    ∀ (flat : List (Key × PyVal)) (declared : List ArgSpec) (k : Key)
      (v : PyVal), (k, v) ∈ flat → nodupKeysB flat = true →
      findSpec ('-' :: '-' :: k) (registerConfigArgs declared flat)
        = some (mkConfigSpec (k, v)) := by
  intro flat
  induction flat with
  | nil => intro _ k v hmem _; exact absurd hmem (List.not_mem_nil (k, v))
  | cons kv rest ih =>
    intro declared k v hmem hnd
    obtain ⟨k1, v1⟩ := kv
    obtain ⟨hct, hnd'⟩ := nodupKeysB_cons hnd
    rcases List.mem_cons.mp hmem with heq | hmem'
    · injection heq with hk hv
      subst hk
      subst hv
      rw [registerConfigArgs_cons]
      refine findSpec_registerConfig_preserve rest _ ?_
        (findSpec_resolveAdd_self (List.mem_singleton.mpr rfl) declared)
      intro kv2 hkv2 hkeq
      exact hct (hkeq ▸ List.mem_map_of_mem Prod.fst hkv2)
    · rw [registerConfigArgs_cons]
      exact ih (resolveAdd declared (mkConfigSpec (k1, v1))) k v hmem' hnd'

/-- C4: for each flat config entry `(k, v)` (keys unique as in any Python
dict), the orchestrator registers an optional argument named `--k` whose
default value is `v` and whose coercion type is `v`'s runtime type
(source line 182); consequently a command-line token that cannot be
coerced to that type fails through the parser's error path: in the spec's
scenario, config `{'count': 10}` (an integer) with command line
`--count abc` is a coercion error, not a silent string fallback. -/
theorem c4_type_registration (flat : List (Key × PyVal))
    (declared : List ArgSpec) (k : Key) (v : PyVal)
    (hmem : (k, v) ∈ flat) (hnd : nodupKeysB flat = true) :
    findSpec ('-' :: '-' :: k) (registerConfigArgs declared flat)
      = some (mkConfigSpec (k, v)) ∧
    (mkConfigSpec (k, v)).options = ['-' :: '-' :: k] ∧
    (mkConfigSpec (k, v)).default = v ∧
    (mkConfigSpec (k, v)).type = pyTypeOf v ∧
    scanTokens (registerConfigArgs [] [(("count").toList, PyVal.int 10)])
        [("--count").toList, ("abc").toList]
      = Except.error (("--count").toList) :=
  ⟨registered_spec flat declared k v hmem hnd, rfl, rfl, rfl, rfl⟩

/-- Witness for C4 at config `{'count': 10}`. -/
theorem c4_type_registration_witness :
    findSpec ('-' :: '-' :: ("count").toList)
        (registerConfigArgs [] [(("count").toList, PyVal.int 10)])
      = some (mkConfigSpec ((("count").toList), PyVal.int 10)) ∧
    (mkConfigSpec ((("count").toList), PyVal.int 10)).options
      = ['-' :: '-' :: ("count").toList] ∧
    (mkConfigSpec ((("count").toList), PyVal.int 10)).default
      = PyVal.int 10 ∧
    (mkConfigSpec ((("count").toList), PyVal.int 10)).type
      = pyTypeOf (PyVal.int 10) ∧
    scanTokens (registerConfigArgs [] [(("count").toList, PyVal.int 10)])
        [("--count").toList, ("abc").toList]
      = Except.error (("--count").toList) :=
  c4_type_registration [(("count").toList, PyVal.int 10)] []
    (("count").toList) (PyVal.int 10) (by decide) (by decide)

/-! ### C5: the usage error of `parse_args` -/

theorem mem_joinSpace {t : Key} :
    ∀ {l : List Key}, t ∈ l →
      ∃ pre post, joinSpace l = pre ++ t ++ post := by
  intro l
  induction l with
  | nil => intro h; exact absurd h (List.not_mem_nil t)
  | cons t1 ts ih =>
    intro hmem
    cases ts with
    | nil =>
      have ht : t = t1 := List.mem_singleton.mp hmem
      subst ht
      exact ⟨[], [], by rw [joinSpace]; simp⟩
    | cons t2 ts' =>
      rcases List.mem_cons.mp hmem with h1 | h1
      · subst h1
        exact ⟨[], ' ' :: joinSpace (t2 :: ts'), by rw [joinSpace]; simp⟩
      · obtain ⟨pre, post, heq⟩ := ih h1
        refine ⟨t1 ++ ' ' :: pre, post, ?_⟩
        rw [joinSpace, heq]
        simp [List.append_assoc]

/-- C5: `parse_args` returns the resolved namespace exactly when no token
is left unrecognized by the second parse pass, and otherwise fails through
the parser's error path with the usage message in which every unrecognized
token occurs (source lines 131-135). -/
theorem c5_parse_args_usage (declared : List ArgSpec) (config : NDict PyVal)
    (argv : List Key) (args : List (Key × PyVal)) (unknown : List Key)
    (hpk : parse_known_args declared config argv
      = Except.ok (args, unknown)) :
    (unknown = [] → parse_args declared config argv = Except.ok args) ∧
    (unknown ≠ [] →
      parse_args declared config argv = Except.error (unrecMsg unknown)) ∧
    (∀ t, t ∈ unknown → ∃ pre post, unrecMsg unknown = pre ++ t ++ post) := by
  refine ⟨?_, ?_, ?_⟩
  · intro h
    subst h
    simp [parse_args, hpk]
  · intro h
    cases unknown with
    | nil => exact absurd rfl h
    | cons u us => simp [parse_args, hpk]
  · intro t ht
    obtain ⟨pre, post, heq⟩ := mem_joinSpace ht
    refine ⟨("unrecognized arguments: ").toList ++ pre, post, ?_⟩
    rw [unrecMsg, heq]
    simp [List.append_assoc]

/-- Witness for C5: the unrecognized-token scenario `--unknown_flag 5`
produces the non-`ok` usage error listing the offending tokens. -/
theorem c5_parse_args_usage_witness :
    parse_args [configfileSpec] cfgUnknown argvUnknown
      = Except.error
          (unrecMsg [("--unknown_flag").toList, ("5").toList]) :=
  (c5_parse_args_usage [configfileSpec] cfgUnknown argvUnknown
    [(("configfile").toList, PyVal.str (("config.py").toList)),
     (['a'], PyVal.int 4)]
    [("--unknown_flag").toList, ("5").toList]
    (by
      have hflat : flatten_keys cfgUnknown = [(['a'], PyVal.int 4)] := by
        simp [cfgUnknown, flatten_keys]
      simp only [parse_known_args, hflat]
      rfl)).2.1 (by decide)

/-! ### C8: conflict-resolving registration -/

theorem mem_resolveStrip_no_conflict {s t : ArgSpec} :
    ∀ {specs : List ArgSpec}, t ∈ resolveStrip s specs →
      ∀ o, o ∈ s.options → o ∉ t.options := by
  intro specs
  induction specs with
  | nil => intro h; exact absurd h (List.not_mem_nil t)
  | cons t0 rest ih =>
    intro hmem o ho
    rw [resolveStrip] at hmem
    split at hmem
    · exact ih hmem o ho
    · rcases List.mem_cons.mp hmem with h1 | h1
      · subst h1
        exact fun h2 => mem_strip_not_conflict h2 ho
      · exact ih h1 o ho

/-- C8: registering a declaration never fails: every registration is
total, the newer declaration is the one found afterwards for each of its
option strings, every surviving older declaration has lost all conflicting
option strings, and the merge registers every config-derived argument
through exactly this conflict-resolving step. -/
theorem c8_conflict_resolution (specs : List ArgSpec) (s : ArgSpec)
    (opt : Key) (hopt : opt ∈ s.options) (declared : List ArgSpec)
    (flat : List (Key × PyVal)) :
    findSpec opt (resolveAdd specs s) = some s ∧
    (∀ t, t ∈ resolveAdd specs s →
      t = s ∨ ∀ o, o ∈ s.options → o ∉ t.options) ∧
    registerConfigArgs declared flat
      = flat.foldl (fun sp kv => resolveAdd sp (mkConfigSpec kv)) declared := by
  refine ⟨findSpec_resolveAdd_self hopt specs, ?_, rfl⟩
  intro t hmem
  rw [resolveAdd] at hmem
  rcases List.mem_append.mp hmem with h1 | h1
  · exact Or.inr (mem_resolveStrip_no_conflict h1)
  · exact Or.inl (List.mem_singleton.mp h1)

/-- Witness for C8: re-registering `--a` (already declared by the program)
from the config entry `a ↦ 4` replaces the old declaration. -/
theorem c8_conflict_resolution_witness :
    findSpec (("--a").toList)
        (resolveAdd
          [ArgSpec.mk [("--a").toList] (("a").toList) (PyVal.int 0)
            PyType.int]
          (mkConfigSpec ((("a").toList), PyVal.int 4)))
      = some (mkConfigSpec ((("a").toList), PyVal.int 4)) ∧
    (∀ t, t ∈ resolveAdd
          [ArgSpec.mk [("--a").toList] (("a").toList) (PyVal.int 0)
            PyType.int]
          (mkConfigSpec ((("a").toList), PyVal.int 4)) →
      t = mkConfigSpec ((("a").toList), PyVal.int 4) ∨
        ∀ o, o ∈ (mkConfigSpec ((("a").toList), PyVal.int 4)).options →
          o ∉ t.options) ∧
    registerConfigArgs [] [(("a").toList, PyVal.int 4)]
      = [(("a").toList, PyVal.int 4)].foldl
          (fun sp kv => resolveAdd sp (mkConfigSpec kv)) [] :=
  c8_conflict_resolution
    [ArgSpec.mk [("--a").toList] (("a").toList) (PyVal.int 0) PyType.int]
    (mkConfigSpec ((("a").toList), PyVal.int 4)) (("--a").toList)
    (by decide) [] [(("a").toList, PyVal.int 4)]

end CustomArgParse
